import Mathlib

/-!
Shallow embedding of the calendar computation engine of the Calendaria
repository, together with proofs about its specified behaviour.

Embedded components:
* the leap-year pattern utilities (`parseInterval`, `parsePattern`,
  `voteOnYear`, `intersectsYear`, `isLeapYear`);
* the moon phase machinery of `CalendariaCalendar`
  (`buildPhaseDayDistribution`, the phase-locating walk, `getMoonPhase`);
* era resolution (`getCurrentEra`);
* cycle resolution (the per-cycle index computation of `getCycleValues`);
* the daylight model (`sunrise`, `sunset`, `daylightHours`,
  `progressNight`).

JavaScript numbers are modelled as `Int` (all involved source computations
stay on integers) or `ℚ` where the source produces fractions (hours of the
day, normalized cycle positions).  JS `%` is the remainder truncated toward
zero, modelled by `Int.tmod`; `Math.floor` of a quotient of integers is
`Int.fdiv`.  Strings handled character by character are modelled as
`List Char`.
-/

namespace Calendaria

/-- JS `a % b` on integers: the remainder truncated toward zero. -/
def jsRem (a b : Int) : Int := Int.tmod a b

/-- JS whitespace stripped by `String.prototype.trim` (the characters that
can occur in the inputs at hand). -/
def isJsSpace (c : Char) : Bool := c = ' ' || c = '\t' || c = '\n' || c = '\r'

/-- JS `String.prototype.trim`: drop whitespace from both ends. -/
def trimChars (cs : List Char) : List Char :=
  ((cs.dropWhile isJsSpace).reverse.dropWhile isJsSpace).reverse

/-- Decimal digit predicate used by `parseInt`. -/
def isDigitChar (c : Char) : Bool := '0' ≤ c && c ≤ '9'

/-- Value of a run of decimal digits, most significant first (the
accumulation `parseInt` performs over the digit span). -/
def digitsVal (ds : List Char) : Nat :=
  ds.foldl (fun acc c => acc * 10 + (c.toNat - '0'.toNat)) 0

/-- Longest leading digit run interpreted as a number; `none` models `NaN`
(no digits at all). -/
def jsParseIntCore (l : List Char) : Option Int :=
  let ds := l.takeWhile isDigitChar
  if ds.length = 0 then none else some (Int.ofNat (digitsVal ds))

/-- JS `parseInt(s, 10)`: an optional sign followed by the longest leading
run of decimal digits; `none` models `NaN`. -/
def jsParseInt (cs : List Char) : Option Int :=
  match cs with
  | [] => none
  | c :: rest =>
    if c = '-' then (jsParseIntCore rest).map (fun v => -v)
    else if c = '+' then jsParseIntCore rest
    else jsParseIntCore (c :: rest)

/-! ## Leap year utilities (LeapYearUtils module) -/

/-- Result of `parseInterval`. -/
structure IntervalObj where
  interval : Int
  subtracts : Bool
  offset : Int
deriving DecidableEq

/-- `parseInterval(intervalStr, offset)`: trim, look for the `!` and `+`
markers, strip them, `parseInt` the rest (`|| 1` turns `NaN` and `0` into
`1`), clamp the interval to at least 1 and normalize the offset into the
interval unless the interval is 1 or the `+` marker is present. -/
def parseInterval (cs : List Char) (offset : Int) : IntervalObj :=
  let str := trimChars cs
  let subtracts := str.contains '!'
  let ignoresOffset := str.contains '+'
  let stripped := str.filter (fun c => !(c = '!' || c = '+'))
  let n : Int :=
    match jsParseInt stripped with
    | none => 1
    | some v => if v = 0 then 1 else v
  let interval := max 1 n
  let normalizedOffset :=
    if interval = 1 || ignoresOffset then 0
    else jsRem (jsRem (interval + offset) interval + interval) interval
  ⟨interval, subtracts, normalizedOffset⟩

/-- JS `String.prototype.split(',')` on a character list. -/
def splitOnComma (cs : List Char) : List (List Char) :=
  cs.foldr (fun c acc =>
    if c = ',' then [] :: acc
    else
      match acc with
      | [] => [[c]]
      | h :: t => (c :: h) :: t) [[]]

/-- `parsePattern(pattern, offset)`: split on commas, trim each segment,
drop blank segments, parse each remaining segment.  (The source returns
`[]` up front for a non-string or empty pattern; for the empty character
list the pipeline below also yields `[]`.) -/
def parsePattern (cs : List Char) (offset : Int) : List IntervalObj :=
  (((splitOnComma cs).map trimChars).filter (fun s => s.length ≠ 0)).map
    (fun s => parseInterval s offset)

/-- A single interval's vote on a year. -/
inductive Vote
  | allow
  | deny
  | abstain
deriving DecidableEq

/-- `voteOnYear(intervalObj, year, yearZeroExists)`. -/
def voteOnYear (iv : IntervalObj) (year : Int) (yearZeroExists : Bool) : Vote :=
  let m := year - iv.offset
  let m := if yearZeroExists = false && year < 0 then m + 1 else m
  if jsRem m iv.interval = 0 then (if iv.subtracts then .deny else .allow)
  else .abstain

/-- `intersectsYear(intervals, year, yearZeroExists)`: map each interval to
its vote, accumulate `allow` as `+1`, `deny` as `-1`, `abstain` as `0`, and
declare a leap year exactly when the total is positive. -/
def intersectsYear (intervals : List IntervalObj) (year : Int)
    (yearZeroExists : Bool) : Bool :=
  if intervals.length = 0 then false
  else
    let votes := intervals.map (fun iv => voteOnYear iv year yearZeroExists)
    let total := votes.foldl (fun acc v =>
      match v with
      | Vote.allow => acc + 1
      | Vote.deny => acc - 1
      | Vote.abstain => acc) (0 : Int)
    decide (total > 0)

/-- Weight of a vote as the specification words it: allow = +1, deny = −1,
abstain = 0. -/
def voteValue : Vote → Int
  | Vote.allow => 1
  | Vote.deny => -1
  | Vote.abstain => 0

/-- The specification-side vote sum over all intervals. -/
def voteSum (intervals : List IntervalObj) (year : Int)
    (yearZeroExists : Bool) : Int :=
  (intervals.map (fun iv => voteValue (voteOnYear iv year yearZeroExists))).sum

/-- The leap-year rule selector of a leap-year configuration; `unknown`
models any unrecognized rule string (the `default` switch branch). -/
inductive LeapRule
  | none
  | simple
  | gregorian
  | custom
  | unknown
deriving DecidableEq

/-- Leap-year configuration (`rule`, `interval`, `start`, `pattern`). -/
structure LeapYearConfig where
  rule : LeapRule
  interval : Option Int
  start : Int
  pattern : Option (List Char)

/-- Decimal digits of a natural number, most significant first; the fuel
argument (always sufficient at `n + 1`) keeps the recursion structural. -/
def natToCharsAux : Nat → Nat → List Char
  | 0, _ => []
  | fuel + 1, n =>
    if n < 10 then [Char.ofNat (48 + n)]
    else natToCharsAux fuel (n / 10) ++ [Char.ofNat (48 + n % 10)]

/-- JS `String(n)` for a natural number. -/
def natToChars (n : Nat) : List Char := natToCharsAux (n + 1) n

/-- JS `String(i)` for an integer. -/
def intToChars (i : Int) : List Char :=
  if i < 0 then '-' :: natToChars i.natAbs else natToChars i.natAbs

/-- `isLeapYear(leapYearConfig, year, yearZeroExists)`: dispatch on the
rule.  `simple` rejects missing or non-positive intervals, `gregorian`
uses the fixed pattern string `"400,!100,4"`, `custom` parses the stored
pattern; anything else is not a leap year. -/
def isLeapYear (cfg : LeapYearConfig) (year : Int) (yearZeroExists : Bool) : Bool :=
  match cfg.rule with
  | LeapRule.none => false
  | LeapRule.simple =>
    match cfg.interval with
    | Option.none => false
    | some iv =>
      if iv ≤ 0 then false
      else intersectsYear [parseInterval (intToChars iv) cfg.start] year yearZeroExists
  | LeapRule.gregorian =>
    intersectsYear (parsePattern ("400,!100,4".toList) cfg.start) year yearZeroExists
  | LeapRule.custom =>
    match cfg.pattern with
    | Option.none => false
    | some p => intersectsYear (parsePattern p cfg.start) year yearZeroExists
  | LeapRule.unknown => false

/-! ## Moon phases (CalendariaCalendar moon phase methods)

`getMoonPhase` first reduces the current components and the moon's
reference date to absolute day counts via `_componentsToDays` (which
delegates to the host framework's `componentsToTime`, outside this
repository) and subtracts them.  The embedding takes that difference,
`daysSinceReference`, as an argument; `none` models a non-finite
(`NaN`/`Infinity`) day count, which integers cannot represent directly. -/

/-- A configured moon phase (name and optional icon/sub-phase names). -/
structure MoonPhaseDef where
  name : String
  icon : Option String
  risingName : Option String
  fadingName : Option String
deriving DecidableEq

/-- A configured moon.  `cycleDayAdjust = none` models a missing or
non-finite adjustment (the source replaces it by 0). -/
structure Moon where
  cycleLength : Int
  cycleDayAdjust : Option Int
  phases : List MoonPhaseDef
deriving DecidableEq

/-- Result object of `getMoonPhase`.  The degenerate-input fallback object
carries only the first five fields; its missing fields are `none` here. -/
structure MoonPhaseResult where
  name : String
  subPhaseName : String
  icon : String
  position : ℚ
  dayInCycle : Int
  phaseIndex : Option Nat
  dayWithinPhase : Option Int
  phaseDuration : Option Int
deriving DecidableEq

/-- `#buildPhaseDayDistribution(cycleLength, numPhases)`: for 8 phases the
FC distribution (primary phases at indices 0 and 4 get
`floor(cycleLength/8)` days each, the six secondary phases split the rest,
earliest secondary phases taking the remainder); otherwise an even split
with the remainder given to the first phases. -/
def buildPhaseDayDistribution (cycleLength : Int) (numPhases : Nat) : List Int :=
  if numPhases ≠ 8 then
    let baseDays := Int.fdiv cycleLength (numPhases : Int)
    let remainder := jsRem cycleLength (numPhases : Int)
    (List.range numPhases).map (fun i => baseDays + (if (Int.ofNat i) < remainder then 1 else 0))
  else
    let primaryDays := Int.fdiv cycleLength 8
    let totalPrimaryDays := primaryDays * 2
    let remainingDays := cycleLength - totalPrimaryDays
    let secondaryDays := Int.fdiv remainingDays 6
    let extraDays := jsRem remainingDays 6
    ((List.range 8).foldl (fun acc i =>
      if i = 0 ∨ i = 4 then (acc.1 ++ [primaryDays], acc.2)
      else (acc.1 ++ [secondaryDays + (if acc.2 < extraDays then 1 else 0)], acc.2 + 1))
      (([] : List Int), (0 : Int))).1

/-- The canonical 8-phase distribution exactly as the specification words
it: indices 0 and 4 get `floor(cycleLength/8)` days; each secondary phase
gets `floor((cycleLength - 2*floor(cycleLength/8))/6)` days, plus one
extra day for the earliest `(cycleLength - 2*floor(cycleLength/8)) mod 6`
secondary phases in index order (`mod` being the source's remainder
operator). -/
def eightPhaseSpec (cycleLength : Int) : List Int :=
  let primary := Int.fdiv cycleLength 8
  let remaining := cycleLength - 2 * primary
  let secondary := Int.fdiv remaining 6
  let extra := jsRem remaining 6
  [primary,
   secondary + (if (0 : Int) < extra then 1 else 0),
   secondary + (if (1 : Int) < extra then 1 else 0),
   secondary + (if (2 : Int) < extra then 1 else 0),
   primary,
   secondary + (if (3 : Int) < extra then 1 else 0),
   secondary + (if (4 : Int) < extra then 1 else 0),
   secondary + (if (5 : Int) < extra then 1 else 0)]

/-- The cumulative-sum walk of `getMoonPhase` that locates the phase
containing `dayIndex` (`cum` and `i` are the loop's running cumulative day
count and index); `none` models falling through the loop without a break.
-/
def findPhaseWalk : List Int → Int → Int → Nat → Option (Nat × Int)
  | [], _, _, _ => none
  | pd :: rest, dayIndex, cum, i =>
    if dayIndex < cum + pd then some (i, dayIndex - cum)
    else findPhaseWalk rest dayIndex (cum + pd) (i + 1)

/-- `#getSubPhaseName(phase, dayWithinPhase, phaseDuration)`.  The host's
localization (`game.i18n`) is external to the engine; localized lookups
are modelled as the key itself and the generated rising/fading labels as
tagged compositions. -/
def getSubPhaseName (phase : MoonPhaseDef) (dayWithinPhase : Int)
    (phaseDuration : Int) : String :=
  if phaseDuration ≤ 1 then phase.name
  else
    let third : ℚ := (phaseDuration : ℚ) / 3
    if (dayWithinPhase : ℚ) < third then
      match phase.risingName with
      | some r => if r = "" then "Rising " ++ phase.name else r
      | Option.none => "Rising " ++ phase.name
    else if (phaseDuration : ℚ) - third ≤ (dayWithinPhase : ℚ) then
      match phase.fadingName with
      | some f => if f = "" then "Fading " ++ phase.name else f
      | Option.none => "Fading " ++ phase.name
    else phase.name

/-- The degenerate-input fallback of `getMoonPhase`: the first defined
phase with position 0 and day 0, or `null` when there is none. -/
def moonFallback (moon : Moon) : Option MoonPhaseResult :=
  match moon.phases.head? with
  | some p => some ⟨p.name, p.name, p.icon.getD "", 0, 0, Option.none, Option.none, Option.none⟩
  | Option.none => Option.none

/-- `getMoonPhase` from the guard onward, with the absolute-day difference
`daysSinceReference` passed in (`none` = non-finite).  A non-finite
`moon.cycleLength` cannot arise for an integer model, so the guard reduces
to `cycleLength ≤ 0` alongside the finiteness of `daysSinceReference`. -/
def getMoonPhase (moon : Moon) (daysSinceReference : Option Int) : Option MoonPhaseResult :=
  match daysSinceReference with
  | Option.none => moonFallback moon
  | some d =>
    if moon.cycleLength ≤ 0 then moonFallback moon
    else
      let cycleDayAdjust := moon.cycleDayAdjust.getD 0
      let L := moon.cycleLength
      let daysIntoCycleRaw := jsRem (jsRem d L + L) L + cycleDayAdjust
      let daysIntoCycle := jsRem (jsRem daysIntoCycleRaw L + L) L
      let normalizedPosition : ℚ := (daysIntoCycle : ℚ) / (L : ℚ)
      let numPhases := if moon.phases.length = 0 then 8 else moon.phases.length
      let phaseDays := buildPhaseDayDistribution L numPhases
      let dayIndex := daysIntoCycle
      let found := findPhaseWalk phaseDays dayIndex 0 0
      let phaseArrayIndex := (found.map (fun x => x.1)).getD 0
      let dayWithinPhase := (found.map (fun x => x.2)).getD 0
      match (match moon.phases.get? phaseArrayIndex with
             | some p => some p
             | Option.none => moon.phases.head?) with
      | Option.none => Option.none
      | some matchedPhase =>
        let phaseDuration := (phaseDays.get? phaseArrayIndex).getD 0
        some ⟨matchedPhase.name,
              getSubPhaseName matchedPhase dayWithinPhase phaseDuration,
              matchedPhase.icon.getD "", normalizedPosition, dayIndex,
              some phaseArrayIndex, some dayWithinPhase, some phaseDuration⟩

/-! ## Era resolution (CalendariaCalendar era methods)

`getCurrentEra` converts the queried time to a display year
(`components.year + yearZero`) before matching; the embedding takes the
display year directly. -/

/-- A configured era. -/
structure Era where
  name : String
  abbreviation : String
  startYear : Int
  endYear : Option Int
  format : Option String
  template : Option String
deriving DecidableEq

/-- Result object of `getCurrentEra`. -/
structure EraResult where
  name : String
  abbreviation : String
  format : String
  template : Option String
  yearInEra : Int
deriving DecidableEq

/-- The era match test of `getCurrentEra`'s loop:
`displayYear >= era.startYear && (era.endYear == null || displayYear <= era.endYear)`. -/
def eraMatches (era : Era) (displayYear : Int) : Bool :=
  decide (era.startYear ≤ displayYear) &&
    (match era.endYear with
     | Option.none => true
     | some ey => decide (displayYear ≤ ey))

/-- The result object `getCurrentEra` builds from an era (shared by the
matched and the fallback paths, which differ only in `yearInEra`); JS `||`
turns an empty or missing `format` into `'suffix'` and an empty `template`
into `null`. -/
def mkEraResult (era : Era) (yearInEra : Int) : EraResult :=
  { name := era.name
    abbreviation := era.abbreviation
    format := match era.format with
      | Option.none => "suffix"
      | some s => if s = "" then "suffix" else s
    template := match era.template with
      | Option.none => Option.none
      | some s => if s = "" then Option.none else some s
    yearInEra := yearInEra }

/-- The descending-`startYear` order used by `getCurrentEra`'s sort
comparator `(a, b) => b.startYear - a.startYear`. -/
def eraGE (a b : Era) : Prop := b.startYear ≤ a.startYear

instance : DecidableRel eraGE := fun a b => Int.decLe b.startYear a.startYear

instance : IsTotal Era eraGE := ⟨fun a b => le_total b.startYear a.startYear⟩

instance : IsTrans Era eraGE := ⟨fun _ _ _ hab hbc => le_trans hbc hab⟩

/-- `getCurrentEra(time)` given the display year: sort a fresh copy of the
eras by `startYear` descending (JS `Array.prototype.sort` is stable, as is
insertion sort), return the first match with
`yearInEra = displayYear - startYear + 1`, or fall back to the first era
in original order with `yearInEra = displayYear`. -/
def getCurrentEra (eras : List Era) (displayYear : Int) : Option EraResult :=
  if eras.length = 0 then Option.none
  else
    let sortedEras := List.insertionSort eraGE eras
    match sortedEras.find? (fun e => eraMatches e displayYear) with
    | some era => some (mkEraResult era (displayYear - era.startYear + 1))
    | Option.none =>
      match eras.head? with
      | some era => some (mkEraResult era displayYear)
      | Option.none => Option.none

/-! ## Cycle resolution (CalendariaCalendar cycle methods) -/

/-- The `basedOn` selector of a cycle. -/
inductive BasedOn
  | year
  | eraYear
  | month
  | monthDay
  | day
  | yearDay
deriving DecidableEq

/-- The epoch values `_getCycleEpochValues` computes (display year, era
year, 0-indexed month, 0-indexed day of month, absolute day count,
0-indexed day of year). -/
structure CycleEpochValues where
  year : Int
  eraYear : Int
  month : Int
  monthDay : Int
  day : Int
  yearDay : Int
deriving DecidableEq

/-- Selection of the epoch value for a cycle's `basedOn` key. -/
def epochValueFor (v : CycleEpochValues) : BasedOn → Int
  | BasedOn.year => v.year
  | BasedOn.eraYear => v.eraYear
  | BasedOn.month => v.month
  | BasedOn.monthDay => v.monthDay
  | BasedOn.day => v.day
  | BasedOn.yearDay => v.yearDay

/-- A configured cycle. -/
structure Cycle where
  name : String
  length : Int
  offset : Int
  basedOn : BasedOn
  entries : List String
deriving DecidableEq

/-- The per-cycle index computation inside `getCycleValues`:
`cycleNum = Math.floor(epochValue / length)`, corrected upward by
`Math.ceil(|epochValue| / entries.length) * entries.length` when negative,
then `(cycleNum + Math.floor(offset / length)) % entries.length`,
normalized into `[0, entries.length)` by the double modulo.  (`getCycleValues`
skips cycles with no entries, so `entries.length ≥ 1` whenever this runs;
`cycle.offset || 0` is the integer `offset` itself.) -/
def getCycleIndex (cycle : Cycle) (epochValue : Int) : Int :=
  let n : Int := (cycle.entries.length : Int)
  let cycleNum := Int.fdiv epochValue cycle.length
  let cycleNum' :=
    if cycleNum < 0
    then cycleNum + (((epochValue.natAbs + cycle.entries.length - 1) / cycle.entries.length : Nat) : Int) * n
    else cycleNum
  let cycleIndex := jsRem (cycleNum' + Int.fdiv cycle.offset cycle.length) n
  jsRem (jsRem cycleIndex n + n) n

/-! ## Daylight model (CalendariaCalendar daylight methods)

`sunrise`, `sunset` and `daylightHours` all evaluate
`_getDaylightHoursForDay` for the queried day; the embedding carries that
day's value in the record.  With dynamic daylight disabled the source
returns `hoursPerDay * 0.5` (the static 50% split); at a solstice day of a
dynamic configuration it returns exactly `shortestDay` or `longestDay`
(cosine easing at progress 0 or 1). -/

/-- A day's daylight context: the calendar's hours per day and the value
`_getDaylightHoursForDay` produces for that day. -/
structure DaylightDay where
  hoursPerDay : ℚ
  daylightHrs : ℚ
deriving DecidableEq

/-- `sunrise(time)`: `midday - daylightHrs / 2`. -/
def sunrise (c : DaylightDay) : ℚ := c.hoursPerDay / 2 - c.daylightHrs / 2

/-- `sunset(time)`: `midday + daylightHrs / 2`. -/
def sunset (c : DaylightDay) : ℚ := c.hoursPerDay / 2 + c.daylightHrs / 2

/-- `daylightHours(time)`: `sunset - sunrise`. -/
def daylightHours (c : DaylightDay) : ℚ := sunset c - sunrise c

/-- `progressDay(time)` given the fractional hour of the day. -/
def progressDay (c : DaylightDay) (hour : ℚ) : ℚ :=
  (hour - sunrise c) / daylightHours c

/-- `progressNight(time)` given the fractional hour of the day: shift the
hour up by `hoursPerDay` when it is below `daylightHours`, then measure
from sunset in units of `daylightHours`. -/
def progressNight (c : DaylightDay) (hour : ℚ) : ℚ :=
  let d := daylightHours c
  let h := if hour < d then hour + c.hoursPerDay else hour
  (h - sunset c) / d

/-- The daylight context of any day when dynamic daylight is disabled:
`_getDaylightHoursForDay` returns `hoursPerDay * 0.5`. -/
def staticDaylight (hoursPerDay : ℚ) : DaylightDay := ⟨hoursPerDay, hoursPerDay * (1 / 2)⟩

/-! ## Inputs referenced by the claims -/

/-- The optional leading marker of an interval spec string: none, `!`, or
`+`. -/
inductive SpecMark
  | bare
  | bang
  | plus
deriving DecidableEq

/-- Characters contributed by a marker. -/
def markChars : SpecMark → List Char
  | SpecMark.bare => []
  | SpecMark.bang => ['!']
  | SpecMark.plus => ['+']

/-- Characters contributed by a sign (`true` = negative). -/
def signChars : Bool → List Char
  | true => ['-']
  | false => []

/-- The integer denoted by a sign and a digit run. -/
def specIntValue (neg : Bool) (ds : List Char) : Int :=
  if neg then -(Int.ofNat (digitsVal ds)) else Int.ofNat (digitsVal ds)

/-- A gregorian-rule leap-year configuration with start offset 0. -/
def gregorianCfg : LeapYearConfig :=
  ⟨LeapRule.gregorian, Option.none, 0, Option.none⟩

/-- An open-ended era starting at display year 1000. -/
def eraFirstAge : Era := ⟨"First Age", "FA", 1000, Option.none, Option.none, Option.none⟩

/-- An open-ended era starting at display year 1500. -/
def eraSecondAge : Era := ⟨"Second Age", "SA", 1500, Option.none, Option.none, Option.none⟩

/-- A month-based cycle of length 12 with 12 entries and no offset. -/
def monthCycle12 : Cycle := ⟨"Zodiac", 12, 0, BasedOn.month, List.replicate 12 "Sign"⟩

/-- A month-based cycle of length 1 with 12 entries and no offset. -/
def monthCycle1 : Cycle := ⟨"Zodiac", 1, 0, BasedOn.month, List.replicate 12 "Sign"⟩

/-- A moon with a valid 30-day cycle but an empty phase list. -/
def moonNoPhases : Moon := ⟨30, some 0, []⟩

/-- A single-phase moon with the degenerate cycle length 0. -/
def moonZeroCycle : Moon :=
  ⟨0, some 0, [⟨"New Moon", some "new.svg", Option.none, Option.none⟩]⟩

/-- The daylight context of the winter-solstice day of a dynamic
configuration with `hoursPerDay = 24` and `shortestDay = 6`
(`_getDaylightHoursForDay` returns exactly `shortestDay` there, since the
cosine easing evaluates to 0). -/
def dynamicWinterDay : DaylightDay := ⟨24, 6⟩

/-! ## Supporting lemmas -/

/-- The truncated remainder agrees with the Euclidean remainder modulo `n`. -/
lemma tmod_emod_congr (a n : Int) : (Int.tmod a n) % n = a % n := by
  conv_rhs => rw [← Int.tmod_add_tdiv a n]
  rw [Int.add_mul_emod_self_left]

/-- Lower bound for the truncated remainder by a positive modulus. -/
lemma neg_lt_tmod (a : Int) {n : Int} (hn : 0 < n) : -n < Int.tmod a n := by
  cases a with
  | ofNat m =>
    have h0 : 0 ≤ Int.tmod (Int.ofNat m) n :=
      Int.tmod_nonneg n (Int.ofNat_nonneg m)
    linarith
  | negSucc m =>
    cases n with
    | ofNat k =>
      have hk : 0 < k := Int.ofNat_pos.mp hn
      have h1 : Int.tmod (Int.negSucc m) (Int.ofNat k) = -(Int.ofNat (Nat.succ m % k)) := rfl
      rw [h1]
      exact Int.neg_lt_neg (Int.ofNat_lt.mpr (Nat.mod_lt _ hk))
    | negSucc k =>
      exact absurd hn (not_lt.mpr (le_of_lt (Int.negSucc_lt_zero k)))

/-- The JS double-remainder normalization realizes the Euclidean remainder. -/
lemma jsRem_double (a : Int) {n : Int} (hn : 0 < n) :
    jsRem (jsRem a n + n) n = a % n := by
  unfold jsRem
  have hup : Int.tmod a n < n := Int.tmod_lt_of_pos a hn
  have hlow : -n < Int.tmod a n := neg_lt_tmod a hn
  rw [Int.tmod_eq_emod (by linarith) (le_of_lt hn)]
  have h2 : (Int.tmod a n + n) % n = (Int.tmod a n) % n := by
    simpa using Int.add_mul_emod_self_left (Int.tmod a n) n 1
  rw [h2, tmod_emod_congr]

/-- The source's `((i + a) % i + i) % i` (JS remainders) equals the same
expression read with the Euclidean remainder. -/
lemma jsRemChain (i a : Int) (hi : 0 < i) :
    jsRem (jsRem (i + a) i + i) i = ((i + a) % i + i) % i := by
  rw [jsRem_double _ hi]
  have h1 : ((i + a) % i + i) % i = ((i + a) % i) % i := by
    simpa using Int.add_mul_emod_self_left ((i + a) % i) i 1
  rw [h1, Int.emod_emod_of_dvd _ dvd_rfl]

/-- `dropWhile` keeps a list whose members all fail the predicate. -/
lemma dropWhile_eq_self_of {p : Char → Bool} {l : List Char}
    (h : ∀ c ∈ l, p c = false) : l.dropWhile p = l := by
  cases l with
  | nil => rfl
  | cons a t =>
    have ha : p a = false := h a (List.mem_cons_self a t)
    simp [List.dropWhile_cons, ha]

/-- Trimming is the identity on whitespace-free character lists. -/
lemma trimChars_eq_self {l : List Char} (h : ∀ c ∈ l, isJsSpace c = false) :
    trimChars l = l := by
  unfold trimChars
  rw [dropWhile_eq_self_of h,
    dropWhile_eq_self_of (fun c hc => h c (List.mem_reverse.mp hc)),
    List.reverse_reverse]

/-- A decimal digit is not whitespace and is none of the marker characters. -/
lemma isDigitChar_props {c : Char} (h : isDigitChar c = true) :
    isJsSpace c = false ∧ c ≠ '!' ∧ c ≠ '+' ∧ c ≠ '-' := by
  unfold isDigitChar at h
  rw [Bool.and_eq_true] at h
  have h1 : '0' ≤ c := of_decide_eq_true h.1
  have hb : c ≠ '!' := fun he => absurd h1 (by rw [he]; decide)
  have hp : c ≠ '+' := fun he => absurd h1 (by rw [he]; decide)
  have hm : c ≠ '-' := fun he => absurd h1 (by rw [he]; decide)
  refine ⟨?_, hb, hp, hm⟩
  have hs : c ≠ ' ' := fun he => absurd h1 (by rw [he]; decide)
  have ht : c ≠ '\t' := fun he => absurd h1 (by rw [he]; decide)
  have hn2 : c ≠ '\n' := fun he => absurd h1 (by rw [he]; decide)
  have hr : c ≠ '\r' := fun he => absurd h1 (by rw [he]; decide)
  simp [isJsSpace, hs, ht, hn2, hr]

/-- `List.contains` as a decided membership. -/
lemma contains_eq_decide_mem (l : List Char) (a : Char) :
    l.contains a = decide (a ∈ l) := by
  simp [List.contains, List.elem_iff]

/-- `parseInt`'s digit accumulation over an all-digit run. -/
lemma jsParseIntCore_digits {ds : List Char} (hne : ds ≠ [])
    (hds : ∀ c ∈ ds, isDigitChar c = true) :
    jsParseIntCore ds = some (Int.ofNat (digitsVal ds)) := by
  unfold jsParseIntCore
  rw [List.takeWhile_eq_self_iff.mpr hds,
    if_neg (fun h => hne (List.length_eq_zero.mp h))]

/-- `parseInt` on a signed all-digit run. -/
lemma jsParseInt_signed (neg : Bool) {ds : List Char} (hne : ds ≠ [])
    (hds : ∀ c ∈ ds, isDigitChar c = true) :
    jsParseInt (signChars neg ++ ds) = some (specIntValue neg ds) := by
  cases neg with
  | true =>
    show jsParseInt ('-' :: ds) = _
    simp [jsParseInt, jsParseIntCore_digits hne hds, specIntValue]
  | false =>
    show jsParseInt ([] ++ ds) = _
    cases ds with
    | nil => exact absurd rfl hne
    | cons c t =>
      have hc := isDigitChar_props (hds c (List.mem_cons_self c t))
      show jsParseInt (c :: t) = _
      rw [jsParseInt, if_neg hc.2.2.2, if_neg hc.2.2.1,
        jsParseIntCore_digits (by simp) hds]
      simp [specIntValue]

/-- The vote-tallying fold of `intersectsYear` computes the weighted sum. -/
lemma foldl_votes (l : List Vote) (a : Int) :
    l.foldl (fun acc v =>
      match v with
      | Vote.allow => acc + 1
      | Vote.deny => acc - 1
      | Vote.abstain => acc) a = a + (l.map voteValue).sum := by
  induction l generalizing a with
  | nil => simp
  | cons v t ih => cases v <;> simp [ih, voteValue] <;> ring

/-- The 8-phase branch of the distribution builder produces exactly the
specification's canonical distribution. -/
lemma build_eight_eq (cL : Int) : buildPhaseDayDistribution cL 8 = eightPhaseSpec cL := by
  have hr : List.range 8 = [0, 1, 2, 3, 4, 5, 6, 7] := rfl
  simp [buildPhaseDayDistribution, eightPhaseSpec, hr, mul_comm]

/-- Sum of the even-split distribution: `n` copies of the base plus one
extra for each index below `r`. -/
lemma sum_even_split (n : Nat) (b r : Int) (hr : 0 ≤ r) :
    ((List.range n).map (fun i => b + if (Int.ofNat i) < r then 1 else 0)).sum
      = n * b + min r n := by
  induction n with
  | zero => simp [min_eq_right hr]
  | succ n ih =>
    rw [List.range_succ, List.map_append, List.sum_append, ih]
    simp only [List.map_cons, List.map_nil, List.sum_cons, List.sum_nil,
      Int.ofNat_eq_natCast]
    push_cast
    have hmul : ((n : Int) + 1) * b = (n : Int) * b + b := by ring
    rw [hmul]
    by_cases hc : (n : Int) < r
    · rw [if_pos hc]
      omega
    · rw [if_neg hc]
      omega

/-- The phase-locating walk succeeds whenever the day index lies inside the
cumulative span of a nonnegative list. -/
lemma findPhaseWalk_finds : ∀ (pds : List Int) (dI cum : Int) (i0 : Nat),
    (∀ x ∈ pds, 0 ≤ x) → cum ≤ dI → dI < cum + pds.sum →
    ∃ j w, findPhaseWalk pds dI cum i0 = some (j, w) ∧ i0 ≤ j ∧ j - i0 < pds.length ∧
      0 ≤ w ∧ w < (pds.get? (j - i0)).getD 0 := by
  intro pds
  induction pds with
  | nil =>
    intro dI cum i0 _ hle hlt
    simp only [List.sum_nil] at hlt
    omega
  | cons pd rest ih =>
    intro dI cum i0 hnn hle hlt
    by_cases hbr : dI < cum + pd
    · refine ⟨i0, dI - cum, ?_, le_refl _, ?_, ?_, ?_⟩
      · simp [findPhaseWalk, hbr]
      · simp
      · omega
      · simp
        omega
    · have hnn' : ∀ x ∈ rest, 0 ≤ x := fun x hx => hnn x (List.mem_cons_of_mem _ hx)
      have hle' : cum + pd ≤ dI := not_lt.mp hbr
      have hlt' : dI < (cum + pd) + rest.sum := by
        have hs : (pd :: rest).sum = pd + rest.sum := by simp
        omega
      obtain ⟨j, w, hw, hj1, hj2, hw1, hw2⟩ := ih dI (cum + pd) (i0 + 1) hnn' hle' hlt'
      refine ⟨j, w, ?_, by omega, ?_, hw1, ?_⟩
      · simp [findPhaseWalk, hbr, hw]
      · simp
        omega
      · have hj : j - i0 = (j - (i0 + 1)) + 1 := by omega
        rw [hj]
        simpa using hw2

/-- On a list sorted by descending `startYear`, the first match of the era
predicate has maximal `startYear` among all matches. -/
lemma sorted_find_max {l : List Era} {y : Int} {e : Era}
    (hs : List.Sorted eraGE l) (hf : l.find? (fun x => eraMatches x y) = some e) :
    ∀ f ∈ l, eraMatches f y = true → f.startYear ≤ e.startYear := by
  induction l with
  | nil => simp at hf
  | cons a t ih =>
    rw [List.sorted_cons] at hs
    by_cases ha : eraMatches a y = true
    · rw [@List.find?_cons_of_pos Era (fun x => eraMatches x y) a t ha] at hf
      injection hf with hf
      subst hf
      intro f hmem _
      rcases List.mem_cons.mp hmem with rfl | hmem'
      · exact le_refl _
      · exact hs.1 f hmem'
    · rw [@List.find?_cons_of_neg Era (fun x => eraMatches x y) a t ha] at hf
      intro f hmem hfm
      rcases List.mem_cons.mp hmem with rfl | hmem'
      · exact absurd hfm ha
      · exact ih hs.2 hf f hmem' hfm

/-! ## Claim theorems -/

/-- C1 (amended): for every cycle with positive length and at least one
entry, the index resolved by `getCycleValues` is
`cycleNum = floor(epochValue/length)`, corrected upward by
`ceil(|epochValue|/entries.length) * entries.length` when negative, then
`(cycleNum + floor(offset/length)) mod entries.length` normalized into
`[0, entries.length)` by the double modulo; and for a month-based cycle
with `length = 1`, `offset = 0` and 12 entries the resolved index equals
the 0-indexed month for every month in `0..11`.  (With `length = 12` the
index is 0 for every month in `0..11`, not the month itself; see the
counterexample.) -/
theorem getCycleIndex_ok :
    (∀ (cycle : Cycle) (e : Int), 0 < cycle.length → cycle.entries ≠ [] →
      getCycleIndex cycle e =
        (((if Int.fdiv e cycle.length < 0
            then Int.fdiv e cycle.length +
              (((e.natAbs + cycle.entries.length - 1) / cycle.entries.length : Nat) : Int) *
                (cycle.entries.length : Int)
            else Int.fdiv e cycle.length) + Int.fdiv cycle.offset cycle.length) %
            (cycle.entries.length : Int) % (cycle.entries.length : Int) +
            (cycle.entries.length : Int)) % (cycle.entries.length : Int) ∧
      0 ≤ getCycleIndex cycle e ∧ getCycleIndex cycle e < (cycle.entries.length : Int)) ∧
    (∀ (yv ev mdv dv ydv : Int) (m : Nat), m < 12 →
      getCycleIndex monthCycle1 (epochValueFor ⟨yv, ev, (m : Int), mdv, dv, ydv⟩ BasedOn.month)
        = (m : Int)) := by
  have hgen : ∀ (cycle : Cycle) (e : Int), 0 < cycle.length → cycle.entries ≠ [] →
      getCycleIndex cycle e =
        (((if Int.fdiv e cycle.length < 0
            then Int.fdiv e cycle.length +
              (((e.natAbs + cycle.entries.length - 1) / cycle.entries.length : Nat) : Int) *
                (cycle.entries.length : Int)
            else Int.fdiv e cycle.length) + Int.fdiv cycle.offset cycle.length) %
            (cycle.entries.length : Int) % (cycle.entries.length : Int) +
            (cycle.entries.length : Int)) % (cycle.entries.length : Int) ∧
      0 ≤ getCycleIndex cycle e ∧ getCycleIndex cycle e < (cycle.entries.length : Int) := by
    intro cycle e _ hne
    have hn : (0 : Int) < (cycle.entries.length : Int) := by
      have := List.length_pos.mpr hne
      exact_mod_cast this
    set q' : Int :=
      (if Int.fdiv e cycle.length < 0
       then Int.fdiv e cycle.length +
         (((e.natAbs + cycle.entries.length - 1) / cycle.entries.length : Nat) : Int) *
           (cycle.entries.length : Int)
       else Int.fdiv e cycle.length) with hq'
    have hcode : getCycleIndex cycle e =
        jsRem (jsRem (jsRem (q' + Int.fdiv cycle.offset cycle.length)
          (cycle.entries.length : Int)) (cycle.entries.length : Int) +
          (cycle.entries.length : Int)) (cycle.entries.length : Int) := rfl
    have hx := jsRem_double
      (jsRem (q' + Int.fdiv cycle.offset cycle.length) (cycle.entries.length : Int)) hn
    have hcongr := tmod_emod_congr (q' + Int.fdiv cycle.offset cycle.length)
      (cycle.entries.length : Int)
    rw [hcode, hx]
    have hlhs : jsRem (q' + Int.fdiv cycle.offset cycle.length) (cycle.entries.length : Int) %
        (cycle.entries.length : Int) =
        (q' + Int.fdiv cycle.offset cycle.length) % (cycle.entries.length : Int) := hcongr
    rw [hlhs]
    refine ⟨?_, Int.emod_nonneg _ (by omega), Int.emod_lt_of_pos _ hn⟩
    have hre : ((q' + Int.fdiv cycle.offset cycle.length) % (cycle.entries.length : Int) +
        (cycle.entries.length : Int)) % (cycle.entries.length : Int) =
        ((q' + Int.fdiv cycle.offset cycle.length) % (cycle.entries.length : Int)) %
          (cycle.entries.length : Int) := by
      simpa using Int.add_mul_emod_self_left
        ((q' + Int.fdiv cycle.offset cycle.length) % (cycle.entries.length : Int))
        (cycle.entries.length : Int) 1
    rw [Int.emod_emod_of_dvd _ dvd_rfl, hre, Int.emod_emod_of_dvd _ dvd_rfl]
  refine ⟨hgen, ?_⟩
  intro yv ev mdv dv ydv m hm
  have hev : epochValueFor ⟨yv, ev, (m : Int), mdv, dv, ydv⟩ BasedOn.month = (m : Int) := rfl
  rw [hev]
  have h := (hgen monthCycle1 (m : Int) (by decide) (by decide)).1
  rw [h]
  have hlen : monthCycle1.length = 1 := rfl
  have hoff : monthCycle1.offset = 0 := rfl
  have hent : (monthCycle1.entries.length : Int) = 12 := rfl
  rw [hlen, hoff, hent, Int.fdiv_one, Int.fdiv_one,
    if_neg (not_lt.mpr (Int.natCast_nonneg m))]
  have hm' : (m : Int) < 12 := by exact_mod_cast hm
  have hm0 : (0 : Int) ≤ (m : Int) := Int.natCast_nonneg m
  omega

/-- C1 counterexample: for the month-based cycle with `length = 12`,
`offset = 0` and 12 entries, month 1 resolves to index 0, not 1 — the
claimed identity `cycleIndex == month` fails. -/
theorem getCycleIndex_month_cex :
    monthCycle12.length = 12 ∧ monthCycle12.entries.length = 12 ∧
    monthCycle12.offset = 0 ∧
    getCycleIndex monthCycle12 (epochValueFor ⟨0, 0, 1, 0, 0, 0⟩ BasedOn.month) = 0 := by
  decide

/-- C1 witness: the general bounds at a concrete cycle and the corrected
month identity at month 3. -/
theorem getCycleIndex_ok_witness :
    (0 < monthCycle12.length ∧ monthCycle12.entries ≠ []) ∧
    0 ≤ getCycleIndex monthCycle12 7 ∧
    getCycleIndex monthCycle12 7 < (monthCycle12.entries.length : Int) ∧
    getCycleIndex monthCycle1 (epochValueFor ⟨0, 0, (3 : Nat), 0, 0, 0⟩ BasedOn.month)
      = ((3 : Nat) : Int) :=
  ⟨⟨by decide, by decide⟩,
   (getCycleIndex_ok.1 monthCycle12 7 (by decide) (by decide)).2.1,
   (getCycleIndex_ok.1 monthCycle12 7 (by decide) (by decide)).2.2,
   getCycleIndex_ok.2 0 0 0 0 0 3 (by decide)⟩

/-- C2 (amended): in the static daylight model (`daylightHrs` =
`hoursPerDay * 0.5`, the value used whenever dynamic daylight is
disabled), for every hour of the day lying in the night span (at or after
sunset, or before the next sunrise), `progressNight` returns a value in
`[0, 1)` equal to the fractional position through the night span from
sunset to the next sunrise, and the hour is shifted up by `hoursPerDay`
exactly when it falls before the sunset time of day.  (Under dynamic
daylight with `daylightHrs ≠ hoursPerDay / 2` the value can leave `[0, 1]`;
see the counterexample.) -/
theorem progressNight_static_ok (hpd hour : ℚ) (hpos : 0 < hpd) (h0 : 0 ≤ hour)
    (hlt : hour < hpd)
    (hnight : sunset (staticDaylight hpd) ≤ hour ∨ hour < sunrise (staticDaylight hpd)) :
    0 ≤ progressNight (staticDaylight hpd) hour ∧
    progressNight (staticDaylight hpd) hour < 1 ∧
    progressNight (staticDaylight hpd) hour =
      ((if hour < sunset (staticDaylight hpd) then hour + hpd else hour) -
        sunset (staticDaylight hpd)) /
        ((sunrise (staticDaylight hpd) + hpd) - sunset (staticDaylight hpd)) ∧
    ((hour < daylightHours (staticDaylight hpd)) ↔ hour < sunset (staticDaylight hpd)) := by
  have hsr : sunrise (staticDaylight hpd) = hpd / 4 := by
    simp only [sunrise, staticDaylight]
    ring
  have hss : sunset (staticDaylight hpd) = 3 * hpd / 4 := by
    simp only [sunset, staticDaylight]
    ring
  have hdh : daylightHours (staticDaylight hpd) = hpd / 2 := by
    simp only [daylightHours, sunset, sunrise, staticDaylight]
    ring
  have hden : (sunrise (staticDaylight hpd) + hpd) - sunset (staticDaylight hpd) = hpd / 2 := by
    rw [hsr, hss]
    ring
  have hdpos : (0 : ℚ) < hpd / 2 := by linarith
  have hhpd : (staticDaylight hpd).hoursPerDay = hpd := rfl
  rcases hnight with hn | hn
  · have hn' : 3 * hpd / 4 ≤ hour := by rw [hss] at hn; exact hn
    have hcond : ¬ hour < daylightHours (staticDaylight hpd) := by
      rw [hdh]
      linarith
    have hpn : progressNight (staticDaylight hpd) hour = (hour - 3 * hpd / 4) / (hpd / 2) := by
      simp only [progressNight]
      rw [if_neg hcond, hdh, hss]
    have hnotlt : ¬ hour < sunset (staticDaylight hpd) := by
      rw [hss]
      linarith
    refine ⟨?_, ?_, ?_, ?_⟩
    · rw [hpn]
      exact div_nonneg (by linarith) (le_of_lt hdpos)
    · rw [hpn]
      exact (div_lt_one hdpos).mpr (by linarith)
    · rw [hpn, if_neg hnotlt, hden, hss]
    · constructor
      · intro h
        exact absurd h hcond
      · intro h
        exact absurd h hnotlt
  · have hn' : hour < hpd / 4 := by rw [hsr] at hn; exact hn
    have hcond : hour < daylightHours (staticDaylight hpd) := by
      rw [hdh]
      linarith
    have hislt : hour < sunset (staticDaylight hpd) := by
      rw [hss]
      linarith
    have hpn : progressNight (staticDaylight hpd) hour =
        (hour + hpd - 3 * hpd / 4) / (hpd / 2) := by
      simp only [progressNight]
      rw [if_pos hcond, hdh, hss, hhpd]
    refine ⟨?_, ?_, ?_, ?_⟩
    · rw [hpn]
      exact div_nonneg (by linarith) (le_of_lt hdpos)
    · rw [hpn]
      exact (div_lt_one hdpos).mpr (by linarith)
    · rw [hpn, if_pos hislt, hden, hss]
    · exact ⟨fun _ => hislt, fun _ => hcond⟩

/-- C2 counterexample: on the winter-solstice day of a dynamic daylight
configuration (`hoursPerDay = 24`, `daylightHrs = shortestDay = 6`), hour
23 lies in the night span (sunset is 15) yet `progressNight` returns
`4/3 > 1`, outside the claimed `[0, 1]`. -/
theorem progressNight_dynamic_cex :
    sunset dynamicWinterDay ≤ 23 ∧ (23 : ℚ) < dynamicWinterDay.hoursPerDay ∧
    1 < progressNight dynamicWinterDay 23 := by
  have hd : daylightHours dynamicWinterDay = 6 := by
    norm_num [daylightHours, sunset, sunrise, dynamicWinterDay]
  have hs : sunset dynamicWinterDay = 15 := by
    norm_num [sunset, dynamicWinterDay]
  refine ⟨by norm_num [hs], by norm_num [dynamicWinterDay], ?_⟩
  simp only [progressNight]
  rw [hd, if_neg (by norm_num), hs]
  norm_num

/-- C2 witness: hour 18 of a 24-hour static day lies after sunset and gets
a night progress inside `[0, 1)`. -/
theorem progressNight_static_witness :
    ((0 : ℚ) < 24 ∧ (0 : ℚ) ≤ 18 ∧ (18 : ℚ) < 24 ∧
      (sunset (staticDaylight 24) ≤ 18 ∨ (18 : ℚ) < sunrise (staticDaylight 24))) ∧
    0 ≤ progressNight (staticDaylight 24) 18 ∧ progressNight (staticDaylight 24) 18 < 1 :=
  ⟨⟨by norm_num, by norm_num, by norm_num,
      Or.inl (by norm_num [sunset, staticDaylight])⟩,
   (progressNight_static_ok 24 18 (by norm_num) (by norm_num) (by norm_num)
      (Or.inl (by norm_num [sunset, staticDaylight]))).1,
   (progressNight_static_ok 24 18 (by norm_num) (by norm_num) (by norm_num)
      (Or.inl (by norm_num [sunset, staticDaylight]))).2.1⟩

/-- C3 (amended): for every interval spec string consisting of an integer
`n` (an optional minus sign and a nonempty digit run) optionally prefixed
with `!` or `+`, and every offset, `parseInterval` returns
`interval = max(1, n)` (so 1 for negative `n`, not `max(1, |n|)`),
`subtracts` = the spec contains `!`, and offset 0 when the interval is 1
or the `+` marker is present, else
`((interval + offset) mod interval + interval) mod interval`. -/
theorem parseInterval_marked (mk : SpecMark) (neg : Bool) (ds : List Char)
    (offset : Int) (hne : ds ≠ []) (hds : ∀ c ∈ ds, isDigitChar c = true) :
    parseInterval (markChars mk ++ (signChars neg ++ ds)) offset =
      { interval := max 1 (specIntValue neg ds)
        subtracts := decide (mk = SpecMark.bang)
        offset :=
          if max 1 (specIntValue neg ds) = 1 ∨ mk = SpecMark.plus then 0
          else ((max 1 (specIntValue neg ds) + offset) % max 1 (specIntValue neg ds) +
                max 1 (specIntValue neg ds)) % max 1 (specIntValue neg ds) } := by
  have hspace : ∀ c ∈ markChars mk ++ (signChars neg ++ ds), isJsSpace c = false := by
    intro c hcmem
    rcases List.mem_append.mp hcmem with h1 | h2
    · revert h1
      cases mk <;> intro h1 <;> simp [markChars] at h1 <;> subst h1 <;> decide
    · rcases List.mem_append.mp h2 with h3 | h4
      · revert h3
        cases neg <;> intro h3 <;> simp [signChars] at h3
        subst h3; decide
      · exact (isDigitChar_props (hds c h4)).1
  have hbangds : '!' ∉ ds := fun hmem => absurd (hds _ hmem) (by decide)
  have hplusds : '+' ∉ ds := fun hmem => absurd (hds _ hmem) (by decide)
  have hbangmem : ((markChars mk ++ (signChars neg ++ ds)).contains '!') =
      decide (mk = SpecMark.bang) := by
    rw [contains_eq_decide_mem]
    cases mk <;> cases neg <;> simp [markChars, signChars, hbangds]
  have hplusmem : ((markChars mk ++ (signChars neg ++ ds)).contains '+') =
      decide (mk = SpecMark.plus) := by
    rw [contains_eq_decide_mem]
    cases mk <;> cases neg <;> simp [markChars, signChars, hplusds]
  have hfilter : (markChars mk ++ (signChars neg ++ ds)).filter
      (fun c => !(c = '!' || c = '+')) = signChars neg ++ ds := by
    rw [List.filter_append, List.filter_append]
    have hf1 : (markChars mk).filter (fun c => !(c = '!' || c = '+')) = [] := by
      cases mk <;> rfl
    have hf2 : (signChars neg).filter (fun c => !(c = '!' || c = '+')) = signChars neg := by
      cases neg <;> rfl
    have hf3 : ds.filter (fun c => !(c = '!' || c = '+')) = ds :=
      List.filter_eq_self.mpr (fun c hc => by
        have h := isDigitChar_props (hds c hc)
        simp [h.2.1, h.2.2.1])
    rw [hf1, hf2, hf3, List.nil_append]
  simp only [parseInterval]
  rw [trimChars_eq_self hspace, hbangmem, hplusmem, hfilter,
    jsParseInt_signed neg hne hds]
  have hmax : max 1 (if specIntValue neg ds = 0 then 1 else specIntValue neg ds) =
      max 1 (specIntValue neg ds) := by
    by_cases h0 : specIntValue neg ds = 0
    · rw [if_pos h0, h0]; decide
    · rw [if_neg h0]
  have hpos : (0 : Int) < max 1 (specIntValue neg ds) :=
    lt_of_lt_of_le one_pos (le_max_left _ _)
  simp only [hmax, IntervalObj.mk.injEq, Bool.or_eq_true, decide_eq_true_eq]
  refine ⟨trivial, trivial, ?_⟩
  split_ifs with h
  · rfl
  · exact jsRemChain _ offset hpos

/-- C3 counterexample: the spec string `"-5"` denotes the integer −5 with
no marker; the claim demands `interval = max(1, |−5|) = 5`, but
`parseInterval` keeps the parsed sign and clamps to 1. -/
theorem parseInterval_negative_cex :
    markChars SpecMark.bare ++ (signChars true ++ ['5']) = ['-', '5'] ∧
    (parseInterval ['-', '5'] 0).interval = 1 ∧
    max 1 (Int.natAbs (specIntValue true ['5']) : Int) = 5 := by
  decide

/-- C3 witness: the spec string `"!4"` with offset 3 parses to interval 4,
subtracting, offset 3. -/
theorem parseInterval_marked_witness :
    (['4'] : List Char) ≠ [] ∧ (∀ c ∈ (['4'] : List Char), isDigitChar c = true) ∧
    parseInterval (markChars SpecMark.bang ++ (signChars false ++ ['4'])) 3 =
      { interval := 4, subtracts := true, offset := 3 } := by
  refine ⟨by decide, by decide, ?_⟩
  rw [parseInterval_marked SpecMark.bang false ['4'] 3 (by decide) (by decide)]
  decide

/-- C4: with the gregorian rule and start offset 0, `isLeapYear` accepts
2000 and 2024 and rejects 1900 and 2023. -/
theorem isLeapYear_gregorian_examples :
    isLeapYear gregorianCfg 2000 true = true ∧
    isLeapYear gregorianCfg 1900 true = false ∧
    isLeapYear gregorianCfg 2024 true = true ∧
    isLeapYear gregorianCfg 2023 true = false := by
  decide

/-- C5: for every non-empty interval list and every year,
`intersectsYear` declares a leap year exactly when the vote sum
(allow = +1, deny = −1, abstain = 0) is strictly positive; in particular a
vote sum of 0 is not a leap year. -/
theorem intersectsYear_iff_voteSum_pos (intervals : List IntervalObj) (year : Int)
    (yearZeroExists : Bool) (h : intervals ≠ []) :
    intersectsYear intervals year yearZeroExists = true ↔
      0 < voteSum intervals year yearZeroExists := by
  simp only [intersectsYear, voteSum]
  rw [if_neg (fun h0 => h (List.length_eq_zero.mp h0)), foldl_votes]
  simp only [List.map_map, decide_eq_true_eq, zero_add, gt_iff_lt]
  have hcomp : (voteValue ∘ fun iv => voteOnYear iv year yearZeroExists) =
      (fun iv => voteValue (voteOnYear iv year yearZeroExists)) := rfl
  rw [hcomp]

/-- C5 witness: the single-interval list `[4]` at year 8. -/
theorem intersectsYear_iff_voteSum_pos_witness :
    ([⟨4, false, 0⟩] : List IntervalObj) ≠ [] ∧
    (intersectsYear [⟨4, false, 0⟩] 8 true = true ↔
      0 < voteSum [⟨4, false, 0⟩] 8 true) :=
  ⟨by decide, intersectsYear_iff_voteSum_pos [⟨4, false, 0⟩] 8 true (by decide)⟩

/-- C6: for every integer cycle length, the 8-phase distribution is the
canonical one — indices 0 and 4 get `floor(cycleLength/8)` days each,
each secondary phase gets `floor((cycleLength - 2*floor(cycleLength/8))/6)`
days plus one extra for the earliest
`(cycleLength - 2*floor(cycleLength/8)) mod 6` secondary phases in index
order — and for `cycleLength = 30` the distribution is
`[3, 4, 4, 4, 3, 4, 4, 4]`, summing to 30. -/
theorem buildPhaseDayDistribution_eight_ok :
    (∀ cL : Int, buildPhaseDayDistribution cL 8 = eightPhaseSpec cL) ∧
    buildPhaseDayDistribution 30 8 = [3, 4, 4, 4, 3, 4, 4, 4] ∧
    (buildPhaseDayDistribution 30 8).sum = 30 :=
  ⟨build_eight_eq, by decide, by decide⟩

/-- C7 (amended): for degenerate moon inputs — `cycleLength ≤ 0` or a
non-finite `daysSinceReference` — `getMoonPhase` totals (it neither throws
nor produces `NaN` in the embedding) and returns the moon's first defined
phase with `position = 0` and `dayInCycle = 0` when at least one phase is
defined; for a moon with no phases it returns `null`, not a phase. -/
theorem getMoonPhase_degenerate (moon : Moon) (dsr : Option Int)
    (hdeg : moon.cycleLength ≤ 0 ∨ dsr = Option.none) :
    getMoonPhase moon dsr =
      moon.phases.head?.map (fun p =>
        { name := p.name, subPhaseName := p.name, icon := p.icon.getD "",
          position := 0, dayInCycle := 0,
          phaseIndex := Option.none, dayWithinPhase := Option.none,
          phaseDuration := Option.none }) := by
  have hfb : moonFallback moon = moon.phases.head?.map (fun p =>
      ({ name := p.name, subPhaseName := p.name, icon := p.icon.getD "",
         position := 0, dayInCycle := 0,
         phaseIndex := Option.none, dayWithinPhase := Option.none,
         phaseDuration := Option.none } : MoonPhaseResult)) := by
    unfold moonFallback
    cases moon.phases.head? <;> simp
  cases dsr with
  | none => simpa [getMoonPhase] using hfb
  | some d =>
    rcases hdeg with h | h
    · simpa [getMoonPhase, h] using hfb
    · exact absurd h (by simp)

/-- C7 counterexample: a moon with no phases (a degenerate input named by
the claim) yields `null`, not "the moon's first defined phase with
position 0". -/
theorem getMoonPhase_noPhases_cex :
    moonNoPhases.phases = [] ∧ getMoonPhase moonNoPhases (some 0) = Option.none := by
  refine ⟨rfl, ?_⟩
  decide

/-- C7 witness: a single-phase moon with cycle length 0. -/
theorem getMoonPhase_degenerate_witness :
    (moonZeroCycle.cycleLength ≤ 0 ∨ (some 5 : Option Int) = Option.none) ∧
    getMoonPhase moonZeroCycle (some 5) =
      moonZeroCycle.phases.head?.map (fun p =>
        { name := p.name, subPhaseName := p.name, icon := p.icon.getD "",
          position := 0, dayInCycle := 0,
          phaseIndex := Option.none, dayWithinPhase := Option.none,
          phaseDuration := Option.none }) :=
  ⟨Or.inl (by decide), getMoonPhase_degenerate moonZeroCycle (some 5) (Or.inl (by decide))⟩

/-- C8: whenever some era matches the display year, `getCurrentEra`
returns (from a fresh sorted copy, the stored list being a pure value
here) a matching era of maximal `startYear` with
`yearInEra = displayYear - startYear + 1`; and for the overlapping
open-ended eras starting 1000 and 1500 queried at 1600, the era starting
1500 is returned with `yearInEra = 101`. -/
theorem getCurrentEra_ok :
    (∀ (eras : List Era) (y : Int) (e : Era), e ∈ eras → eraMatches e y = true →
      ∃ w, w ∈ eras ∧ eraMatches w y = true ∧
        (∀ f ∈ eras, eraMatches f y = true → f.startYear ≤ w.startYear) ∧
        getCurrentEra eras y = some (mkEraResult w (y - w.startYear + 1))) ∧
    getCurrentEra [eraFirstAge, eraSecondAge] 1600 =
      some { name := "Second Age", abbreviation := "SA", format := "suffix",
             template := Option.none, yearInEra := 101 } := by
  constructor
  · intro eras y e hmem hm
    have hne : ¬ eras.length = 0 := by
      intro h0
      rw [List.length_eq_zero] at h0
      subst h0
      simp at hmem
    have hperm := List.perm_insertionSort eraGE eras
    have hsorted := List.sorted_insertionSort eraGE eras
    have hmem' : e ∈ List.insertionSort eraGE eras := hperm.mem_iff.mpr hmem
    rcases hfind : (List.insertionSort eraGE eras).find? (fun x => eraMatches x y)
      with _ | w
    · exact absurd hm (by simpa using List.find?_eq_none.mp hfind e hmem')
    · have hw1 : eraMatches w y = true :=
        @List.find?_some Era (fun x => eraMatches x y) w _ hfind
      have hw2 : w ∈ eras := hperm.mem_iff.mp (List.mem_of_find?_eq_some hfind)
      refine ⟨w, hw2, hw1, ?_, ?_⟩
      · intro f hf hfm
        exact sorted_find_max hsorted hfind f (hperm.mem_iff.mpr hf) hfm
      · simp only [getCurrentEra]
        rw [if_neg hne, hfind]
  · decide

/-- C8 witness: the overlap example instantiating the universal part. -/
theorem getCurrentEra_ok_witness :
    (eraSecondAge ∈ [eraFirstAge, eraSecondAge] ∧ eraMatches eraSecondAge 1600 = true) ∧
    ∃ w, w ∈ [eraFirstAge, eraSecondAge] ∧ eraMatches w 1600 = true ∧
      (∀ f ∈ [eraFirstAge, eraSecondAge], eraMatches f 1600 = true →
        f.startYear ≤ w.startYear) ∧
      getCurrentEra [eraFirstAge, eraSecondAge] 1600 =
        some (mkEraResult w (1600 - w.startYear + 1)) :=
  ⟨⟨by decide, by decide⟩,
   getCurrentEra_ok.1 [eraFirstAge, eraSecondAge] 1600 eraSecondAge (by decide) (by decide)⟩

/-- C9: when no era matches the display year and at least one era exists,
`getCurrentEra` falls back to the first era in original (unsorted) order
with `yearInEra` equal to the display year itself. -/
theorem getCurrentEra_fallback (eras : List Era) (y : Int) (e : Era) (t : List Era)
    (hcons : eras = e :: t) (hnone : ∀ f ∈ eras, eraMatches f y = false) :
    getCurrentEra eras y = some (mkEraResult e y) := by
  subst hcons
  have hfind : (List.insertionSort eraGE (e :: t)).find? (fun x => eraMatches x y) =
      Option.none :=
    List.find?_eq_none.mpr (fun x hx => by
      simp [hnone x ((List.perm_insertionSort eraGE (e :: t)).mem_iff.mp hx)])
  simp only [getCurrentEra]
  rw [if_neg (by simp), hfind]
  simp

/-- C9 witness: display year 500 predates both example eras, so the first
era in definition order is returned with `yearInEra = 500`. -/
theorem getCurrentEra_fallback_witness :
    ([eraFirstAge, eraSecondAge] : List Era) = eraFirstAge :: [eraSecondAge] ∧
    (∀ f ∈ ([eraFirstAge, eraSecondAge] : List Era), eraMatches f 500 = false) ∧
    getCurrentEra [eraFirstAge, eraSecondAge] 500 = some (mkEraResult eraFirstAge 500) :=
  ⟨rfl, by decide,
   getCurrentEra_fallback [eraFirstAge, eraSecondAge] 500 eraFirstAge [eraSecondAge]
     rfl (by decide)⟩

/-- C10: for every integer `cycleLength ≥ 0` and `numPhases ≥ 1`, the
phase-day distribution has exactly `numPhases` entries, each nonnegative,
summing to `cycleLength`; hence the cumulative-sum walk of `getMoonPhase`
finds a phase for every day index in `[0, cycleLength)`. -/
theorem phaseDistribution_invariant (cL : Int) (num : Nat)
    (hcl : 0 ≤ cL) (hnum : 1 ≤ num) :
    (buildPhaseDayDistribution cL num).length = num ∧
    (∀ x ∈ buildPhaseDayDistribution cL num, 0 ≤ x) ∧
    (buildPhaseDayDistribution cL num).sum = cL ∧
    (∀ dayIndex : Int, 0 ≤ dayIndex → dayIndex < cL →
      ∃ j w, findPhaseWalk (buildPhaseDayDistribution cL num) dayIndex 0 0 = some (j, w) ∧
        j < num ∧ 0 ≤ w ∧
        w < ((buildPhaseDayDistribution cL num).get? j).getD 0) := by
  have hnn : ∀ x ∈ buildPhaseDayDistribution cL num, 0 ≤ x := by
    by_cases h8 : num = 8
    · subst h8
      rw [build_eight_eq]
      have hq : Int.fdiv cL 8 = cL / 8 := Int.fdiv_eq_ediv _ (by omega)
      have hrem : 0 ≤ cL - 2 * (cL / 8) := by omega
      have hsec : Int.fdiv (cL - 2 * (cL / 8)) 6 = (cL - 2 * (cL / 8)) / 6 :=
        Int.fdiv_eq_ediv _ (by omega)
      have hext : jsRem (cL - 2 * (cL / 8)) 6 = (cL - 2 * (cL / 8)) % 6 := by
        unfold jsRem; exact Int.tmod_eq_emod hrem (by omega)
      intro x hx
      simp only [eightPhaseSpec] at hx
      rw [hq, hsec, hext] at hx
      simp only [List.mem_cons, List.not_mem_nil, or_false] at hx
      rcases hx with h | h | h | h | h | h | h | h <;> rw [h] <;>
        first
        | omega
        | (split_ifs <;> omega)
    · rw [show buildPhaseDayDistribution cL num =
          (List.range num).map (fun i =>
            Int.fdiv cL (num : Int) + (if (Int.ofNat i) < jsRem cL (num : Int) then 1 else 0))
          from by simp [buildPhaseDayDistribution, h8]]
      have hq : Int.fdiv cL (num : Int) = cL / (num : Int) :=
        Int.fdiv_eq_ediv _ (by positivity)
      intro x hx
      simp only [List.mem_map] at hx
      obtain ⟨i, _, hix⟩ := hx
      rw [hq] at hix
      have hdiv : 0 ≤ cL / (num : Int) := Int.ediv_nonneg hcl (by positivity)
      subst hix
      split_ifs <;> omega
  have hsum : (buildPhaseDayDistribution cL num).sum = cL := by
    by_cases h8 : num = 8
    · subst h8
      rw [build_eight_eq]
      have hq : Int.fdiv cL 8 = cL / 8 := Int.fdiv_eq_ediv _ (by omega)
      have hrem : 0 ≤ cL - 2 * (cL / 8) := by omega
      have hsec : Int.fdiv (cL - 2 * (cL / 8)) 6 = (cL - 2 * (cL / 8)) / 6 :=
        Int.fdiv_eq_ediv _ (by omega)
      have hext : jsRem (cL - 2 * (cL / 8)) 6 = (cL - 2 * (cL / 8)) % 6 := by
        unfold jsRem; exact Int.tmod_eq_emod hrem (by omega)
      simp only [eightPhaseSpec, List.sum_cons, List.sum_nil]
      rw [hq, hsec, hext]
      split_ifs <;> omega
    · rw [show buildPhaseDayDistribution cL num =
          (List.range num).map (fun i =>
            Int.fdiv cL (num : Int) + (if (Int.ofNat i) < jsRem cL (num : Int) then 1 else 0))
          from by simp [buildPhaseDayDistribution, h8]]
      have hnum0 : (0 : Int) < (num : Int) := by exact_mod_cast hnum
      have hq : Int.fdiv cL (num : Int) = cL / (num : Int) :=
        Int.fdiv_eq_ediv _ (by positivity)
      have hr : jsRem cL (num : Int) = cL % (num : Int) :=
        Int.tmod_eq_emod hcl (by positivity)
      rw [hq, hr, sum_even_split num _ _ (Int.emod_nonneg _ (by omega))]
      have hlt : cL % (num : Int) < (num : Int) := Int.emod_lt_of_pos _ hnum0
      have hnn0 : 0 ≤ cL % (num : Int) := Int.emod_nonneg _ (by omega)
      have hmin : min (cL % (num : Int)) ((num : Nat) : Int) = cL % (num : Int) := by omega
      rw [hmin]
      have hdm := Int.ediv_add_emod cL (num : Int)
      omega
  have hlen : (buildPhaseDayDistribution cL num).length = num := by
    by_cases h8 : num = 8
    · subst h8
      rw [build_eight_eq]
      rfl
    · rw [show buildPhaseDayDistribution cL num =
          (List.range num).map (fun i =>
            Int.fdiv cL (num : Int) + (if (Int.ofNat i) < jsRem cL (num : Int) then 1 else 0))
          from by simp [buildPhaseDayDistribution, h8]]
      simp
  refine ⟨hlen, hnn, hsum, ?_⟩
  intro dayIndex hd0 hdlt
  obtain ⟨j, w, hw, _, hj2, hw1, hw2⟩ :=
    findPhaseWalk_finds (buildPhaseDayDistribution cL num) dayIndex 0 0 hnn hd0
      (by rw [hsum]; omega)
  refine ⟨j, w, hw, ?_, hw1, ?_⟩
  · omega
  · simpa using hw2

/-- C10 witness: the canonical 30-day 8-phase moon. -/
theorem phaseDistribution_invariant_witness :
    ((0 : Int) ≤ 30 ∧ 1 ≤ 8) ∧
    (buildPhaseDayDistribution 30 8).length = 8 ∧
    (buildPhaseDayDistribution 30 8).sum = 30 :=
  ⟨⟨by decide, by decide⟩,
   (phaseDistribution_invariant 30 8 (by decide) (by decide)).1,
   (phaseDistribution_invariant 30 8 (by decide) (by decide)).2.2.1⟩

end Calendaria
